import Mathlib

/-!
Shallow embedding of `animatediff/utils/freeinit_utils.py` (repository X-Dyna).

The file under verification builds frequency-domain low-pass filter masks
(`gaussian_low_pass_filter`, `butterworth_low_pass_filter`, `ideal_low_pass_filter`,
`box_low_pass_filter`, dispatched by `get_freq_filter`) and mixes two signals in
frequency space (`freq_mix_3d`).

Modelling choices:
* Python floats are modelled by exact rationals `ℚ` (the float parameters of the
  code are a subset of `ℚ`); mask values live in `ℝ` because the gaussian mask
  applies `math.exp`.
* A torch tensor produced by these functions is modelled by `Tensor`: its `shape`
  (the Python value `list(t.shape)`) together with its entries.  Every write the
  code performs is of the form `mask[..., t, h, w] = v`, i.e. constant across the
  leading (batch/channel) dimensions, so entries are indexed by the trailing
  three coordinates only.
* The triple `for` loop of the gaussian / butterworth / ideal constructors is
  modelled by a left fold over the list of visited coordinates, each step
  performing the pointwise update `mask[..., t, h, w] = v`.
* The Python built-in `round` (round half to even) is modelled by `roundHalfEven`,
  and Python slice-assignment index semantics (negative indices shifted by the
  axis length, then clamped to `[0, len]`) by `pySliceLo` / `inPySlice`.
* `torch.fft.fftn` / `ifftn` over the trailing three axes and
  `fftshift` / `ifftshift` are external primitives; they are modelled by their
  mathematical definitions: the discrete Fourier transform `ZMod.dft` (forward,
  unnormalised, kernel `exp (-2 pi i j k / N)`, exactly the torch convention)
  applied along each axis, and index rolls by `len / 2`.
-/

namespace FreeInit

/-- A tensor as produced by the filter constructors: its shape (the Python
`shape` tuple as a list) and its entries, indexed by the trailing three
coordinates `(t, h, w)` (all writes performed by the code are constant across
the leading batch/channel dimensions). -/
structure Tensor where
  shape : List ℕ
  val : ℕ → ℕ → ℕ → ℝ

/-- Python `shape[-(k+1)]`: the `k`-th dimension counted from the end
(`dimFromEnd shape 0` is `shape[-1]`). -/
def dimFromEnd (shape : List ℕ) (k : ℕ) : ℕ :=
  shape.reverse.getD k 0

/-- The coordinates `(t, h, w)` visited by the triple loop
`for t in range(T): for h in range(H): for w in range(W)`, in loop order. -/
def coords (T H W : ℕ) : List (ℕ × ℕ × ℕ) :=
  (List.range T).flatMap fun t =>
    (List.range H).flatMap fun h =>
      (List.range W).map fun w => (t, h, w)

/-- Pointwise tensor write `mask[..., t, h, w] = v` (on the trailing-coordinate
entry function). -/
def writeMask (m : ℕ → ℕ → ℕ → ℝ) (t h w : ℕ) (v : ℝ) : ℕ → ℕ → ℕ → ℝ :=
  fun t2 h2 w2 => if t2 = t ∧ h2 = h ∧ w2 = w then v else m t2 h2 w2

/-- The shared squared distance of the source:
`d_square = ((d_s/d_t)*(2*t/T-1))**2 + (2*h/H-1)**2 + (2*w/W-1)**2`. -/
def d_square (d_s d_t : ℚ) (T H W t h w : ℕ) : ℚ :=
  ((d_s / d_t) * (2 * t / T - 1)) ^ 2 + (2 * h / H - 1) ^ 2 + (2 * w / W - 1) ^ 2

/-- Embedding of `gaussian_low_pass_filter(shape, d_s, d_t)`. -/
noncomputable def gaussian_low_pass_filter (shape : List ℕ) (d_s d_t : ℚ) : Tensor :=
  let T := dimFromEnd shape 2
  let H := dimFromEnd shape 1
  let W := dimFromEnd shape 0
  if d_s = 0 ∨ d_t = 0 then ⟨shape, fun _ _ _ => 0⟩
  else
    ⟨shape, (coords T H W).foldl
      (fun m p => writeMask m p.1 p.2.1 p.2.2
        (Real.exp ((-1 / (2 * d_s ^ 2) * d_square d_s d_t T H W p.1 p.2.1 p.2.2 : ℚ) : ℝ)))
      (fun _ _ _ => 0)⟩

/-- Embedding of `butterworth_low_pass_filter(shape, n, d_s, d_t)`. -/
noncomputable def butterworth_low_pass_filter (shape : List ℕ) (n : ℕ) (d_s d_t : ℚ) : Tensor :=
  let T := dimFromEnd shape 2
  let H := dimFromEnd shape 1
  let W := dimFromEnd shape 0
  if d_s = 0 ∨ d_t = 0 then ⟨shape, fun _ _ _ => 0⟩
  else
    ⟨shape, (coords T H W).foldl
      (fun m p => writeMask m p.1 p.2.1 p.2.2
        ((1 / (1 + (d_square d_s d_t T H W p.1 p.2.1 p.2.2 / d_s ^ 2) ^ n) : ℚ) : ℝ))
      (fun _ _ _ => 0)⟩

/-- Embedding of `ideal_low_pass_filter(shape, d_s, d_t)`. -/
noncomputable def ideal_low_pass_filter (shape : List ℕ) (d_s d_t : ℚ) : Tensor :=
  let T := dimFromEnd shape 2
  let H := dimFromEnd shape 1
  let W := dimFromEnd shape 0
  if d_s = 0 ∨ d_t = 0 then ⟨shape, fun _ _ _ => 0⟩
  else
    ⟨shape, (coords T H W).foldl
      (fun m p => writeMask m p.1 p.2.1 p.2.2
        (if d_square d_s d_t T H W p.1 p.2.1 p.2.2 ≤ d_s * 2 then (1 : ℝ) else 0))
      (fun _ _ _ => 0)⟩

/-- The Python built-in `round`: round half to even (bankers rounding). -/
def roundHalfEven (x : ℚ) : ℤ :=
  if Int.fract x < 1 / 2 then ⌊x⌋
  else if 1 / 2 < Int.fract x then ⌊x⌋ + 1
  else if ⌊x⌋ % 2 = 0 then ⌊x⌋ else ⌊x⌋ + 1

/-- Python slice-bound normalisation for an axis of length `n`: a negative
index is shifted by `n`, then the result is clamped to `[0, n]`. -/
def pySliceLo (n : ℕ) (i : ℤ) : ℤ :=
  max 0 (min (if i < 0 then i + n else i) n)

/-- Membership of index `j` in the Python slice `lo:hi` (step 1) of an axis of
length `n`. -/
def inPySlice (n : ℕ) (lo hi : ℤ) (j : ℕ) : Prop :=
  pySliceLo n lo ≤ (j : ℤ) ∧ (j : ℤ) < pySliceLo n hi

instance (n : ℕ) (lo hi : ℤ) (j : ℕ) : Decidable (inPySlice n lo hi j) :=
  inferInstanceAs (Decidable (_ ∧ _))

/-- Embedding of `box_low_pass_filter(shape, d_s, d_t)`: thresholds
`threshold_s = round(int(H // 2) * d_s)`, `threshold_t = round(T // 2 * d_t)`,
then the slice assignment
`mask[..., cframe-threshold_t:cframe+threshold_t, crow-threshold_s:crow+threshold_s,
ccol-threshold_s:ccol+threshold_s] = 1.0` on the all-zero tensor. -/
noncomputable def box_low_pass_filter (shape : List ℕ) (d_s d_t : ℚ) : Tensor :=
  let T := dimFromEnd shape 2
  let H := dimFromEnd shape 1
  let W := dimFromEnd shape 0
  if d_s = 0 ∨ d_t = 0 then ⟨shape, fun _ _ _ => 0⟩
  else
    let threshold_s : ℤ := roundHalfEven (((H / 2 : ℕ) : ℚ) * d_s)
    let threshold_t : ℤ := roundHalfEven (((T / 2 : ℕ) : ℚ) * d_t)
    let cframe : ℤ := ((T / 2 : ℕ) : ℤ)
    let crow : ℤ := ((H / 2 : ℕ) : ℤ)
    let ccol : ℤ := ((W / 2 : ℕ) : ℤ)
    ⟨shape, fun t h w =>
      if inPySlice T (cframe - threshold_t) (cframe + threshold_t) t ∧
          inPySlice H (crow - threshold_s) (crow + threshold_s) h ∧
          inPySlice W (ccol - threshold_s) (ccol + threshold_s) w
      then 1 else 0⟩

/-- The `params` record taken by `get_freq_filter`. -/
structure FilterParams where
  method : String
  d_s : ℚ
  d_t : ℚ
  n : ℕ

/-- Embedding of `get_freq_filter(shape, device, params)`; the device move
`.to(device)` is the identity in this model, and `raise NotImplementedError`
is modelled by the `Except.error` branch. -/
noncomputable def get_freq_filter (shape : List ℕ) (params : FilterParams) :
    Except String Tensor :=
  if params.method = "gaussian" then
    Except.ok (gaussian_low_pass_filter shape params.d_s params.d_t)
  else if params.method = "ideal" then
    Except.ok (ideal_low_pass_filter shape params.d_s params.d_t)
  else if params.method = "box" then
    Except.ok (box_low_pass_filter shape params.d_s params.d_t)
  else if params.method = "butterworth" then
    Except.ok (butterworth_low_pass_filter shape params.n params.d_s params.d_t)
  else
    Except.error "NotImplementedError"

/-- Final value of the triple-loop write pattern: after folding pointwise
writes of `g p` over a coordinate list, a cell holds `g` of its own coordinate
if the loop visited it, and the initial value otherwise. -/
theorem foldl_writeMask (g : ℕ × ℕ × ℕ → ℝ) (l : List (ℕ × ℕ × ℕ)) (m : ℕ → ℕ → ℕ → ℝ)
    (t h w : ℕ) :
    (l.foldl (fun m2 p => writeMask m2 p.1 p.2.1 p.2.2 (g p)) m) t h w =
      if (t, h, w) ∈ l then g (t, h, w) else m t h w := by
  induction l generalizing m with
  | nil => simp
  | cons a l ih =>
    rw [List.foldl_cons, ih]
    by_cases hmem : (t, h, w) ∈ l
    · simp [hmem, List.mem_cons]
    · by_cases heq : (t, h, w) = a
      · subst heq
        simp [writeMask, hmem, List.mem_cons]
      · have hc : ¬(t = a.1 ∧ h = a.2.1 ∧ w = a.2.2) := by
          intro hcon
          obtain ⟨x, y, z⟩ := a
          simp only at hcon
          exact heq (by simp [hcon.1, hcon.2.1, hcon.2.2])
        simp [writeMask, hmem, List.mem_cons, heq, hc]

/-- The triple loop visits exactly the in-range coordinates. -/
theorem mem_coords {T H W t h w : ℕ} :
    (t, h, w) ∈ coords T H W ↔ t < T ∧ h < H ∧ w < W := by
  simp only [coords, List.mem_flatMap, List.mem_map, List.mem_range, Prod.mk.injEq]
  constructor
  · rintro ⟨a, ha, b, hb, c, hc, rfl, rfl, rfl⟩
    exact ⟨ha, hb, hc⟩
  · rintro ⟨h1, h2, h3⟩
    exact ⟨t, h1, h, h2, w, h3, rfl, rfl, rfl⟩

/-- Reading `shape[-3], shape[-2], shape[-1]` off a shape with trailing
dimensions `[T, H, W]`. -/
theorem dimFromEnd_append (pre : List ℕ) (T H W : ℕ) :
    dimFromEnd (pre ++ [T, H, W]) 2 = T ∧ dimFromEnd (pre ++ [T, H, W]) 1 = H ∧
      dimFromEnd (pre ++ [T, H, W]) 0 = W := by
  simp [dimFromEnd, List.reverse_append]

/-- The gaussian constructor returns a tensor of the full input shape. -/
theorem gaussian_shape (shape : List ℕ) (d_s d_t : ℚ) :
    (gaussian_low_pass_filter shape d_s d_t).shape = shape := by
  simp only [gaussian_low_pass_filter]
  split <;> rfl

/-- The butterworth constructor returns a tensor of the full input shape. -/
theorem butterworth_shape (shape : List ℕ) (n : ℕ) (d_s d_t : ℚ) :
    (butterworth_low_pass_filter shape n d_s d_t).shape = shape := by
  simp only [butterworth_low_pass_filter]
  split <;> rfl

/-- The ideal constructor returns a tensor of the full input shape. -/
theorem ideal_shape (shape : List ℕ) (d_s d_t : ℚ) :
    (ideal_low_pass_filter shape d_s d_t).shape = shape := by
  simp only [ideal_low_pass_filter]
  split <;> rfl

/-- The box constructor returns a tensor of the full input shape. -/
theorem box_shape (shape : List ℕ) (d_s d_t : ℚ) :
    (box_low_pass_filter shape d_s d_t).shape = shape := by
  simp only [box_low_pass_filter]
  split <;> rfl

/-- Value of the gaussian mask at an in-range coordinate, as the code computes
it. -/
theorem gaussian_val (pre : List ℕ) (T H W : ℕ) (d_s d_t : ℚ) (hs : d_s ≠ 0) (ht : d_t ≠ 0)
    (t h w : ℕ) (h1 : t < T) (h2 : h < H) (h3 : w < W) :
    (gaussian_low_pass_filter (pre ++ [T, H, W]) d_s d_t).val t h w =
      Real.exp ((-1 / (2 * d_s ^ 2) * d_square d_s d_t T H W t h w : ℚ) : ℝ) := by
  obtain ⟨e2, e1, e0⟩ := dimFromEnd_append pre T H W
  have hz : ¬(d_s = 0 ∨ d_t = 0) := by
    rintro (rfl | rfl)
    · exact hs rfl
    · exact ht rfl
  have h4 := foldl_writeMask
      (fun p => Real.exp ((-1 / (2 * d_s ^ 2) * d_square d_s d_t T H W p.1 p.2.1 p.2.2 : ℚ) : ℝ))
      (coords T H W) (fun _ _ _ => 0) t h w
  rw [if_pos (mem_coords.mpr ⟨h1, h2, h3⟩)] at h4
  simpa only [gaussian_low_pass_filter, e2, e1, e0, if_neg hz] using h4

/-- Value of the butterworth mask at an in-range coordinate, as the code
computes it. -/
theorem butterworth_val (pre : List ℕ) (T H W : ℕ) (n : ℕ) (d_s d_t : ℚ) (hs : d_s ≠ 0)
    (ht : d_t ≠ 0) (t h w : ℕ) (h1 : t < T) (h2 : h < H) (h3 : w < W) :
    (butterworth_low_pass_filter (pre ++ [T, H, W]) n d_s d_t).val t h w =
      ((1 / (1 + (d_square d_s d_t T H W t h w / d_s ^ 2) ^ n) : ℚ) : ℝ) := by
  obtain ⟨e2, e1, e0⟩ := dimFromEnd_append pre T H W
  have hz : ¬(d_s = 0 ∨ d_t = 0) := by
    rintro (rfl | rfl)
    · exact hs rfl
    · exact ht rfl
  have h4 := foldl_writeMask
      (fun p => ((1 / (1 + (d_square d_s d_t T H W p.1 p.2.1 p.2.2 / d_s ^ 2) ^ n) : ℚ) : ℝ))
      (coords T H W) (fun _ _ _ => 0) t h w
  rw [if_pos (mem_coords.mpr ⟨h1, h2, h3⟩)] at h4
  simpa only [butterworth_low_pass_filter, e2, e1, e0, if_neg hz] using h4

/-- Value of the ideal mask at an in-range coordinate, as the code computes
it. -/
theorem ideal_val (pre : List ℕ) (T H W : ℕ) (d_s d_t : ℚ) (hs : d_s ≠ 0) (ht : d_t ≠ 0)
    (t h w : ℕ) (h1 : t < T) (h2 : h < H) (h3 : w < W) :
    (ideal_low_pass_filter (pre ++ [T, H, W]) d_s d_t).val t h w =
      (if d_square d_s d_t T H W t h w ≤ d_s * 2 then (1 : ℝ) else 0) := by
  obtain ⟨e2, e1, e0⟩ := dimFromEnd_append pre T H W
  have hz : ¬(d_s = 0 ∨ d_t = 0) := by
    rintro (rfl | rfl)
    · exact hs rfl
    · exact ht rfl
  have h4 := foldl_writeMask
      (fun p => (if d_square d_s d_t T H W p.1 p.2.1 p.2.2 ≤ d_s * 2 then (1 : ℝ) else 0))
      (coords T H W) (fun _ _ _ => 0) t h w
  rw [if_pos (mem_coords.mpr ⟨h1, h2, h3⟩)] at h4
  simpa only [ideal_low_pass_filter, e2, e1, e0, if_neg hz] using h4

/-- Squared distance exactly as the specification words it, over the reals:
`d^2 = ((d_s/d_t)*(2t/T-1))^2 + (2h/H-1)^2 + (2w/W-1)^2`. -/
noncomputable def specDistSq (d_s d_t : ℚ) (T H W t h w : ℕ) : ℝ :=
  (((d_s : ℝ) / (d_t : ℝ)) * (2 * (t : ℝ) / (T : ℝ) - 1)) ^ 2 +
    (2 * (h : ℝ) / (H : ℝ) - 1) ^ 2 + (2 * (w : ℝ) / (W : ℝ) - 1) ^ 2

/-- The rational squared distance computed by the code coincides with the
real-valued squared distance of the specification. -/
theorem d_square_cast (d_s d_t : ℚ) (T H W t h w : ℕ) :
    ((d_square d_s d_t T H W t h w : ℚ) : ℝ) = specDistSq d_s d_t T H W t h w := by
  unfold d_square specDistSq
  push_cast
  ring

/-- C1: for every shape with trailing dimensions T,H,W ≥ 1 and every d_s > 0,
d_t > 0, the gaussian mask value at (t,h,w) equals exp(-d²/(2·d_s²)) and the
butterworth mask value equals 1/(1 + (d²/d_s²)^n), where d² is the shared
squared distance (temporal axis scaled by d_s/d_t before squaring). -/
theorem gaussian_butterworth_pointwise (pre : List ℕ) (T H W : ℕ)
    (hT : 1 ≤ T) (hH : 1 ≤ H) (hW : 1 ≤ W) (d_s d_t : ℚ) (hs : 0 < d_s) (ht : 0 < d_t)
    (n : ℕ) (t h w : ℕ) (h1 : t < T) (h2 : h < H) (h3 : w < W) :
    (gaussian_low_pass_filter (pre ++ [T, H, W]) d_s d_t).val t h w =
        Real.exp (-specDistSq d_s d_t T H W t h w / (2 * (d_s : ℝ) ^ 2)) ∧
      (butterworth_low_pass_filter (pre ++ [T, H, W]) n d_s d_t).val t h w =
        1 / (1 + (specDistSq d_s d_t T H W t h w / (d_s : ℝ) ^ 2) ^ n) := by
  constructor
  · rw [gaussian_val pre T H W d_s d_t hs.ne' ht.ne' t h w h1 h2 h3]
    congr 1
    push_cast
    rw [d_square_cast]
    ring
  · rw [butterworth_val pre T H W n d_s d_t hs.ne' ht.ne' t h w h1 h2 h3]
    push_cast
    rw [d_square_cast]

/-- Witness for C1 at shape (1,1,2,2,2), d_s = d_t = 1, n = 4, coordinate
(0,0,0). -/
theorem gaussian_butterworth_pointwise_witness :
    (gaussian_low_pass_filter [1, 1, 2, 2, 2] 1 1).val 0 0 0 =
        Real.exp (-specDistSq 1 1 2 2 2 0 0 0 / (2 * ((1 : ℚ) : ℝ) ^ 2)) ∧
      (butterworth_low_pass_filter [1, 1, 2, 2, 2] 4 1 1).val 0 0 0 =
        1 / (1 + (specDistSq 1 1 2 2 2 0 0 0 / ((1 : ℚ) : ℝ) ^ 2) ^ 4) :=
  gaussian_butterworth_pointwise [1, 1] 2 2 2 (by norm_num) (by norm_num) (by norm_num)
    1 1 (by norm_num) (by norm_num) 4 0 0 0 (by norm_num) (by norm_num) (by norm_num)

/-- C2: for each of the four methods, a zero cutoff (d_s = 0 or d_t = 0) makes
the returned mask identically zero; the constructors short-circuit to the
freshly allocated all-zero tensor. -/
theorem zero_cutoff_zero_mask (shape : List ℕ) (n : ℕ) (d_s d_t : ℚ)
    (hz : d_s = 0 ∨ d_t = 0) :
    (∀ t h w, (gaussian_low_pass_filter shape d_s d_t).val t h w = 0) ∧
      (∀ t h w, (ideal_low_pass_filter shape d_s d_t).val t h w = 0) ∧
      (∀ t h w, (box_low_pass_filter shape d_s d_t).val t h w = 0) ∧
      (∀ t h w, (butterworth_low_pass_filter shape n d_s d_t).val t h w = 0) := by
  refine ⟨fun t h w => ?_, fun t h w => ?_, fun t h w => ?_, fun t h w => ?_⟩
  · simp only [gaussian_low_pass_filter, if_pos hz]
  · simp only [ideal_low_pass_filter, if_pos hz]
  · simp only [box_low_pass_filter, if_pos hz]
  · simp only [butterworth_low_pass_filter, if_pos hz]

/-- Witness for C2 at shape (1,1,2,2,2), d_s = 0, d_t = 1, n = 4, coordinate
(0,0,0). -/
theorem zero_cutoff_zero_mask_witness :
    (gaussian_low_pass_filter [1, 1, 2, 2, 2] 0 1).val 0 0 0 = 0 ∧
      (ideal_low_pass_filter [1, 1, 2, 2, 2] 0 1).val 0 0 0 = 0 ∧
      (box_low_pass_filter [1, 1, 2, 2, 2] 0 1).val 0 0 0 = 0 ∧
      (butterworth_low_pass_filter [1, 1, 2, 2, 2] 4 0 1).val 0 0 0 = 0 :=
  ⟨(zero_cutoff_zero_mask [1, 1, 2, 2, 2] 4 0 1 (Or.inl rfl)).1 0 0 0,
    (zero_cutoff_zero_mask [1, 1, 2, 2, 2] 4 0 1 (Or.inl rfl)).2.1 0 0 0,
    (zero_cutoff_zero_mask [1, 1, 2, 2, 2] 4 0 1 (Or.inl rfl)).2.2.1 0 0 0,
    (zero_cutoff_zero_mask [1, 1, 2, 2, 2] 4 0 1 (Or.inl rfl)).2.2.2 0 0 0⟩

/-- C3: for trailing dimensions T,H,W ≥ 1 and d_s > 0, d_t > 0, the ideal mask
is binary (every element is exactly 0 or exactly 1), and the value at (t,h,w)
is 1 exactly when d² ≤ 2·d_s (threshold 2·d_s, not d_s²). -/
theorem ideal_binary_threshold (pre : List ℕ) (T H W : ℕ)
    (hT : 1 ≤ T) (hH : 1 ≤ H) (hW : 1 ≤ W) (d_s d_t : ℚ) (hs : 0 < d_s) (ht : 0 < d_t)
    (t h w : ℕ) (h1 : t < T) (h2 : h < H) (h3 : w < W) :
    ((ideal_low_pass_filter (pre ++ [T, H, W]) d_s d_t).val t h w = 0 ∨
        (ideal_low_pass_filter (pre ++ [T, H, W]) d_s d_t).val t h w = 1) ∧
      ((ideal_low_pass_filter (pre ++ [T, H, W]) d_s d_t).val t h w = 1 ↔
        d_square d_s d_t T H W t h w ≤ 2 * d_s) := by
  rw [ideal_val pre T H W d_s d_t hs.ne' ht.ne' t h w h1 h2 h3]
  constructor
  · split_ifs
    · exact Or.inr rfl
    · exact Or.inl rfl
  · split_ifs with hc
    · constructor
      · intro _
        rw [mul_comm] at hc
        exact hc
      · intro _
        rfl
    · constructor
      · intro h0
        norm_num at h0
      · intro hD
        rw [mul_comm] at hD
        exact absurd hD hc

/-- Witness for C3 at shape (1,1,2,2,2), d_s = d_t = 1, coordinate (0,0,0). -/
theorem ideal_binary_threshold_witness :
    ((ideal_low_pass_filter [1, 1, 2, 2, 2] 1 1).val 0 0 0 = 0 ∨
        (ideal_low_pass_filter [1, 1, 2, 2, 2] 1 1).val 0 0 0 = 1) ∧
      ((ideal_low_pass_filter [1, 1, 2, 2, 2] 1 1).val 0 0 0 = 1 ↔
        d_square 1 1 2 2 2 0 0 0 ≤ 2 * 1) :=
  ideal_binary_threshold [1, 1] 2 2 2 (by norm_num) (by norm_num) (by norm_num)
    1 1 (by norm_num) (by norm_num) 0 0 0 (by norm_num) (by norm_num) (by norm_num)

/-- Value of the box mask with nonzero cutoffs: 1 on the Python-normalised
slices, 0 elsewhere (direct unfolding of the constructor). -/
theorem box_val (shape : List ℕ) (d_s d_t : ℚ) (hs : d_s ≠ 0) (ht : d_t ≠ 0) (t h w : ℕ) :
    (box_low_pass_filter shape d_s d_t).val t h w =
      if inPySlice (dimFromEnd shape 2)
            (((dimFromEnd shape 2 / 2 : ℕ) : ℤ) -
              roundHalfEven (((dimFromEnd shape 2 / 2 : ℕ) : ℚ) * d_t))
            (((dimFromEnd shape 2 / 2 : ℕ) : ℤ) +
              roundHalfEven (((dimFromEnd shape 2 / 2 : ℕ) : ℚ) * d_t)) t ∧
          inPySlice (dimFromEnd shape 1)
            (((dimFromEnd shape 1 / 2 : ℕ) : ℤ) -
              roundHalfEven (((dimFromEnd shape 1 / 2 : ℕ) : ℚ) * d_s))
            (((dimFromEnd shape 1 / 2 : ℕ) : ℤ) +
              roundHalfEven (((dimFromEnd shape 1 / 2 : ℕ) : ℚ) * d_s)) h ∧
          inPySlice (dimFromEnd shape 0)
            (((dimFromEnd shape 0 / 2 : ℕ) : ℤ) -
              roundHalfEven (((dimFromEnd shape 1 / 2 : ℕ) : ℚ) * d_s))
            (((dimFromEnd shape 0 / 2 : ℕ) : ℤ) +
              roundHalfEven (((dimFromEnd shape 1 / 2 : ℕ) : ℚ) * d_s)) w
      then 1 else 0 := by
  have hz : ¬(d_s = 0 ∨ d_t = 0) := by
    rintro (rfl | rfl)
    · exact hs rfl
    · exact ht rfl
  simp only [box_low_pass_filter, if_neg hz]

/-- Rounding half to even never turns a nonnegative argument negative. -/
theorem roundHalfEven_nonneg (x : ℚ) (hx : 0 ≤ x) : 0 ≤ roundHalfEven x := by
  have h0 : (0 : ℤ) ≤ ⌊x⌋ := Int.floor_nonneg.mpr hx
  unfold roundHalfEven
  split_ifs <;> omega

/-- Slice-bound normalisation is the identity on bounds already in `[0, n]`. -/
theorem pySliceLo_of_bounds (n : ℕ) (i : ℤ) (h0 : 0 ≤ i) (hn : i ≤ n) :
    pySliceLo n i = i := by
  simp only [pySliceLo, if_neg (not_lt.mpr h0)]
  omega

/-- For slice bounds already inside `[0, n]`, Python slice membership is plain
interval membership. -/
theorem inPySlice_of_bounds (n : ℕ) (lo hi : ℤ) (hlo0 : 0 ≤ lo) (hlon : lo ≤ n)
    (hhi0 : 0 ≤ hi) (hhin : hi ≤ n) (j : ℕ) :
    inPySlice n lo hi j ↔ lo ≤ (j : ℤ) ∧ (j : ℤ) < hi := by
  unfold inPySlice
  rw [pySliceLo_of_bounds n lo hlo0 hlon, pySliceLo_of_bounds n hi hhi0 hhin]

/-- Modelled from the words of claim C4 and the spec: the box mask described as
a plain centered rectangular block, 1 on `[center - threshold,
center + threshold)` per axis (`threshold_s` from H on both height and width)
and 0 elsewhere, with no Python slice-index normalisation. -/
noncomputable def boxMaskClaim (shape : List ℕ) (d_s d_t : ℚ) : ℕ → ℕ → ℕ → ℝ :=
  let T := dimFromEnd shape 2
  let H := dimFromEnd shape 1
  let W := dimFromEnd shape 0
  let threshold_s : ℤ := roundHalfEven (((H / 2 : ℕ) : ℚ) * d_s)
  let threshold_t : ℤ := roundHalfEven (((T / 2 : ℕ) : ℚ) * d_t)
  let cframe : ℤ := ((T / 2 : ℕ) : ℤ)
  let crow : ℤ := ((H / 2 : ℕ) : ℤ)
  let ccol : ℤ := ((W / 2 : ℕ) : ℤ)
  fun t h w =>
    if cframe - threshold_t ≤ (t : ℤ) ∧ (t : ℤ) < cframe + threshold_t ∧
        crow - threshold_s ≤ (h : ℤ) ∧ (h : ℤ) < crow + threshold_s ∧
        ccol - threshold_s ≤ (w : ℤ) ∧ (w : ℤ) < ccol + threshold_s
    then 1 else 0

/-- Counterexample to C4 as stated: at shape (1,1,2,6,4) with d_s = d_t = 1,
threshold_s = round(3·1) = 3 exceeds W/2 = 2, so the width slice 2-3 : 2+3 is
normalised by Python to 3:4; the cell (0,0,0) lies inside the claimed block
but the computed mask is 0 there. -/
theorem box_block_counterexample :
    (box_low_pass_filter [1, 1, 2, 6, 4] 1 1).val 0 0 0 = 0 ∧
      boxMaskClaim [1, 1, 2, 6, 4] 1 1 0 0 0 = 1 := by
  have e2 : dimFromEnd [1, 1, 2, 6, 4] 2 = 2 := rfl
  have e1 : dimFromEnd [1, 1, 2, 6, 4] 1 = 6 := rfl
  have e0 : dimFromEnd [1, 1, 2, 6, 4] 0 = 4 := rfl
  have h6 : roundHalfEven (((6 / 2 : ℕ) : ℚ) * 1) = 3 := by
    norm_num [roundHalfEven, Int.fract]
  have h2 : roundHalfEven (((2 / 2 : ℕ) : ℚ) * 1) = 1 := by
    norm_num [roundHalfEven, Int.fract]
  constructor
  · rw [box_val [1, 1, 2, 6, 4] 1 1 (by norm_num) (by norm_num) 0 0 0, e2, e1, e0]
    rw [if_neg]
    rintro ⟨-, -, hw⟩
    rw [h6] at hw
    norm_num [inPySlice, pySliceLo] at hw
  · simp only [boxMaskClaim, e2, e1, e0]
    rw [if_pos]
    rw [h6, h2]
    omega

/-- C4 (amended): for T,H,W ≥ 1 and d_s > 0, d_t > 0, and provided the rounded
half-thresholds do not exceed the half length of any axis they are applied to
(threshold_t ≤ T/2 and threshold_s ≤ H/2, W/2 — otherwise Python slice-index
normalisation truncates or wraps the block), the box mask equals 1 exactly on
the centered block [center - threshold, center + threshold) on each axis, with
threshold_s derived from H on both the height and width axes, and 0
elsewhere. -/
theorem box_block (pre : List ℕ) (T H W : ℕ)
    (hT : 1 ≤ T) (hH : 1 ≤ H) (hW : 1 ≤ W) (d_s d_t : ℚ) (hs : 0 < d_s) (ht : 0 < d_t)
    (hts1 : roundHalfEven (((H / 2 : ℕ) : ℚ) * d_s) ≤ ((H / 2 : ℕ) : ℤ))
    (hts2 : roundHalfEven (((H / 2 : ℕ) : ℚ) * d_s) ≤ ((W / 2 : ℕ) : ℤ))
    (htt : roundHalfEven (((T / 2 : ℕ) : ℚ) * d_t) ≤ ((T / 2 : ℕ) : ℤ)) :
    ∀ t h w, (box_low_pass_filter (pre ++ [T, H, W]) d_s d_t).val t h w =
      boxMaskClaim (pre ++ [T, H, W]) d_s d_t t h w := by
  intro t h w
  obtain ⟨e2, e1, e0⟩ := dimFromEnd_append pre T H W
  have hts0 : 0 ≤ roundHalfEven (((H / 2 : ℕ) : ℚ) * d_s) :=
    roundHalfEven_nonneg _ (mul_nonneg (Nat.cast_nonneg _) hs.le)
  have htt0 : 0 ≤ roundHalfEven (((T / 2 : ℕ) : ℚ) * d_t) :=
    roundHalfEven_nonneg _ (mul_nonneg (Nat.cast_nonneg _) ht.le)
  rw [box_val (pre ++ [T, H, W]) d_s d_t hs.ne' ht.ne' t h w]
  rw [e2, e1, e0]
  simp only [boxMaskClaim, e2, e1, e0]
  refine if_congr ?_ rfl rfl
  rw [inPySlice_of_bounds T _ _ (by omega) (by omega) (by omega) (by omega) t,
    inPySlice_of_bounds H _ _ (by omega) (by omega) (by omega) (by omega) h,
    inPySlice_of_bounds W _ _ (by omega) (by omega) (by omega) (by omega) w]
  tauto

/-- Witness for C4 (amended) at shape (1,1,4,4,4), d_s = d_t = 1/2, coordinate
(2,2,2): thresholds are round(2·(1/2)) = 1 ≤ 2. -/
theorem box_block_witness :
    (box_low_pass_filter [1, 1, 4, 4, 4] (1 / 2) (1 / 2)).val 2 2 2 =
      boxMaskClaim [1, 1, 4, 4, 4] (1 / 2) (1 / 2) 2 2 2 :=
  box_block [1, 1] 4 4 4 (by norm_num) (by norm_num) (by norm_num) (1 / 2) (1 / 2)
    (by norm_num) (by norm_num) (by norm_num [roundHalfEven, Int.fract])
    (by norm_num [roundHalfEven, Int.fract]) (by norm_num [roundHalfEven, Int.fract]) 2 2 2

/-- Counterexample to C9 as stated: the Python round is round-half-to-even, so
the thresholds at shape (1,1,4,4,4), d_s = d_t = 0.25 are round(2·0.25) =
round(0.5) = 0 (not 1), and the cell (1,1,1) inside the claimed 2×2×2 block is
0 in the computed mask. -/
theorem box_example_counterexample :
    roundHalfEven (((4 / 2 : ℕ) : ℚ) * (1 / 4)) = 0 ∧
      (box_low_pass_filter [1, 1, 4, 4, 4] (1 / 4) (1 / 4)).val 1 1 1 = 0 := by
  have hr : roundHalfEven (((4 / 2 : ℕ) : ℚ) * (1 / 4)) = 0 := by
    norm_num [roundHalfEven, Int.fract]
  have e2 : dimFromEnd [1, 1, 4, 4, 4] 2 = 4 := rfl
  have e1 : dimFromEnd [1, 1, 4, 4, 4] 1 = 4 := rfl
  have e0 : dimFromEnd [1, 1, 4, 4, 4] 0 = 4 := rfl
  refine ⟨hr, ?_⟩
  rw [box_val [1, 1, 4, 4, 4] (1 / 4) (1 / 4) (by norm_num) (by norm_num) 1 1 1, e2, e1, e0]
  rw [if_neg]
  rintro ⟨hct, -, -⟩
  rw [hr] at hct
  simp only [sub_zero, add_zero] at hct
  unfold inPySlice at hct
  omega

/-- C9 (amended): at shape (1,1,4,4,4) with d_s = d_t = 0.25 the computed
half-thresholds are threshold_s = threshold_t = round(2·0.25) = round(0.5) = 0
under round-half-to-even, the selected block is empty, and the returned box
mask is identically zero. -/
theorem box_example_zero :
    roundHalfEven (((4 / 2 : ℕ) : ℚ) * (1 / 4)) = 0 ∧
      ∀ t h w, (box_low_pass_filter [1, 1, 4, 4, 4] (1 / 4) (1 / 4)).val t h w = 0 := by
  have hr : roundHalfEven (((4 / 2 : ℕ) : ℚ) * (1 / 4)) = 0 := by
    norm_num [roundHalfEven, Int.fract]
  have e2 : dimFromEnd [1, 1, 4, 4, 4] 2 = 4 := rfl
  have e1 : dimFromEnd [1, 1, 4, 4, 4] 1 = 4 := rfl
  have e0 : dimFromEnd [1, 1, 4, 4, 4] 0 = 4 := rfl
  refine ⟨hr, fun t h w => ?_⟩
  rw [box_val [1, 1, 4, 4, 4] (1 / 4) (1 / 4) (by norm_num) (by norm_num) t h w, e2, e1, e0]
  rw [if_neg]
  rintro ⟨hct, -, -⟩
  rw [hr] at hct
  simp only [sub_zero, add_zero] at hct
  unfold inPySlice at hct
  omega

/-- C10: for positive cutoffs, whenever either rounded half-threshold is zero
(round half to even, e.g. T = H = 4 with d_s = d_t = 0.25 gives round(0.5) =
0), the selected block of the box filter is empty and the returned mask is
identically zero. -/
theorem box_degenerate_zero (pre : List ℕ) (T H W : ℕ) (d_s d_t : ℚ)
    (hs : 0 < d_s) (ht : 0 < d_t)
    (hz : roundHalfEven (((T / 2 : ℕ) : ℚ) * d_t) = 0 ∨
      roundHalfEven (((H / 2 : ℕ) : ℚ) * d_s) = 0) :
    ∀ t h w, (box_low_pass_filter (pre ++ [T, H, W]) d_s d_t).val t h w = 0 := by
  intro t h w
  obtain ⟨e2, e1, e0⟩ := dimFromEnd_append pre T H W
  rw [box_val (pre ++ [T, H, W]) d_s d_t hs.ne' ht.ne' t h w]
  rw [e2, e1, e0]
  rw [if_neg]
  rintro ⟨hct, hch, -⟩
  rcases hz with hz | hz
  · rw [hz] at hct
    simp only [sub_zero, add_zero] at hct
    unfold inPySlice at hct
    omega
  · rw [hz] at hch
    simp only [sub_zero, add_zero] at hch
    unfold inPySlice at hch
    omega

/-- Witness for C10 at shape (1,1,4,4,4), d_s = d_t = 1/4, center coordinate
(2,2,2). -/
theorem box_degenerate_zero_witness :
    (box_low_pass_filter [1, 1, 4, 4, 4] (1 / 4) (1 / 4)).val 2 2 2 = 0 :=
  box_degenerate_zero [1, 1] 4 4 4 (1 / 4) (1 / 4) (by norm_num) (by norm_num)
    (Or.inl (by norm_num [roundHalfEven, Int.fract])) 2 2 2

/-- C7: get_freq_filter fails immediately with the unimplemented-method error
for every params whose method is not one of the four recognized names, and for
each recognized name it returns the mask of the corresponding filter without
error. -/
theorem get_freq_filter_dispatch (shape : List ℕ) (params : FilterParams) (d_s d_t : ℚ)
    (n : ℕ)
    (hm : params.method ∉ (["gaussian", "ideal", "box", "butterworth"] : List String)) :
    get_freq_filter shape params = Except.error "NotImplementedError" ∧
      get_freq_filter shape ⟨"gaussian", d_s, d_t, n⟩ =
        Except.ok (gaussian_low_pass_filter shape d_s d_t) ∧
      get_freq_filter shape ⟨"ideal", d_s, d_t, n⟩ =
        Except.ok (ideal_low_pass_filter shape d_s d_t) ∧
      get_freq_filter shape ⟨"box", d_s, d_t, n⟩ =
        Except.ok (box_low_pass_filter shape d_s d_t) ∧
      get_freq_filter shape ⟨"butterworth", d_s, d_t, n⟩ =
        Except.ok (butterworth_low_pass_filter shape n d_s d_t) := by
  simp only [List.mem_cons, List.not_mem_nil, or_false, not_or] at hm
  obtain ⟨hm1, hm2, hm3, hm4⟩ := hm
  refine ⟨?_, rfl, rfl, rfl, rfl⟩
  simp only [get_freq_filter, if_neg hm1, if_neg hm2, if_neg hm3, if_neg hm4]

/-- Witness for C7: method "linear" is rejected; method "box" returns the box
filter mask. -/
theorem get_freq_filter_dispatch_witness :
    get_freq_filter [1, 1, 2, 2, 2] ⟨"linear", 1, 1, 4⟩ =
        Except.error "NotImplementedError" ∧
      get_freq_filter [1, 1, 2, 2, 2] ⟨"box", 1, 1, 4⟩ =
        Except.ok (box_low_pass_filter [1, 1, 2, 2, 2] 1 1) :=
  ⟨(get_freq_filter_dispatch [1, 1, 2, 2, 2] ⟨"linear", 1, 1, 4⟩ 1 1 4 (by decide)).1,
    (get_freq_filter_dispatch [1, 1, 2, 2, 2] ⟨"linear", 1, 1, 4⟩ 1 1 4 (by decide)).2.2.2.1⟩

/-- Counterexample to C8 as stated: for the 5-tuple input shape (1,1,1,1,1)
and the recognized method gaussian, the returned mask keeps the full
5-dimensional input shape (the code allocates `torch.zeros(shape)`), which is
not the trailing-three shape (T,H,W) = [1,1,1]. -/
theorem mask_full_shape_counterexample :
    (get_freq_filter [1, 1, 1, 1, 1] ⟨"gaussian", 1, 1, 4⟩).map Tensor.shape =
        Except.ok [1, 1, 1, 1, 1] ∧
      ([1, 1, 1, 1, 1] : List ℕ) ≠ [1, 1, 1] := by
  constructor
  · simp only [get_freq_filter, if_pos rfl]
    show Except.ok (gaussian_low_pass_filter [1, 1, 1, 1, 1] 1 1).shape = _
    rw [gaussian_shape]
  · decide

/-- C8 (amended): for every input shape and every recognized method, the mask
returned by get_freq_filter carries the full input shape (B,C,T,H,W), its
values being constant across the leading batch/channel dimensions — not the
trailing-three shape (T,H,W). -/
theorem mask_full_shape (shape : List ℕ) (params : FilterParams) (m : Tensor)
    (hok : get_freq_filter shape params = Except.ok m) : m.shape = shape := by
  unfold get_freq_filter at hok
  split_ifs at hok
  · cases hok
    exact gaussian_shape shape params.d_s params.d_t
  · cases hok
    exact ideal_shape shape params.d_s params.d_t
  · cases hok
    exact box_shape shape params.d_s params.d_t
  · cases hok
    exact butterworth_shape shape params.n params.d_s params.d_t

/-- Witness for C8 (amended) at shape (2,3,4,5,6) with method gaussian. -/
theorem mask_full_shape_witness :
    (gaussian_low_pass_filter [2, 3, 4, 5, 6] 1 1).shape = [2, 3, 4, 5, 6] :=
  mask_full_shape [2, 3, 4, 5, 6] ⟨"gaussian", 1, 1, 4⟩
    (gaussian_low_pass_filter [2, 3, 4, 5, 6] 1 1) rfl

/-- Forward DFT along the time axis, torch convention: kernel
`exp (-2 pi i t k / T)`, unnormalised (this is `ZMod.dft`). -/
noncomputable def dftAxisT {T H W : ℕ} [NeZero T] (x : ZMod T → ZMod H → ZMod W → ℂ) :
    ZMod T → ZMod H → ZMod W → ℂ :=
  fun k h w => ZMod.dft (fun t => x t h w) k

/-- Forward DFT along the height axis. -/
noncomputable def dftAxisH {T H W : ℕ} [NeZero H] (x : ZMod T → ZMod H → ZMod W → ℂ) :
    ZMod T → ZMod H → ZMod W → ℂ :=
  fun t k w => ZMod.dft (fun h => x t h w) k

/-- Forward DFT along the width axis. -/
noncomputable def dftAxisW {T H W : ℕ} [NeZero W] (x : ZMod T → ZMod H → ZMod W → ℂ) :
    ZMod T → ZMod H → ZMod W → ℂ :=
  fun t h k => ZMod.dft (x t h) k

/-- Inverse DFT along the time axis (torch backward convention: kernel
`exp (2 pi i t k / T)` scaled by `1/T`; this is the inverse of `ZMod.dft`). -/
noncomputable def idftAxisT {T H W : ℕ} [NeZero T] (x : ZMod T → ZMod H → ZMod W → ℂ) :
    ZMod T → ZMod H → ZMod W → ℂ :=
  fun k h w => ZMod.dft.symm (fun t => x t h w) k

/-- Inverse DFT along the height axis. -/
noncomputable def idftAxisH {T H W : ℕ} [NeZero H] (x : ZMod T → ZMod H → ZMod W → ℂ) :
    ZMod T → ZMod H → ZMod W → ℂ :=
  fun t k w => ZMod.dft.symm (fun h => x t h w) k

/-- Inverse DFT along the width axis. -/
noncomputable def idftAxisW {T H W : ℕ} [NeZero W] (x : ZMod T → ZMod H → ZMod W → ℂ) :
    ZMod T → ZMod H → ZMod W → ℂ :=
  fun t h k => ZMod.dft.symm (x t h) k

/-- Model of `torch.fft.fftn(x, dim=(-3,-2,-1))`: the forward DFT applied
along each of the trailing three axes (the 3D transform is separable). -/
noncomputable def fftn {T H W : ℕ} [NeZero T] [NeZero H] [NeZero W]
    (x : ZMod T → ZMod H → ZMod W → ℂ) : ZMod T → ZMod H → ZMod W → ℂ :=
  dftAxisT (dftAxisH (dftAxisW x))

/-- Model of `torch.fft.ifftn(x, dim=(-3,-2,-1))`. -/
noncomputable def ifftn {T H W : ℕ} [NeZero T] [NeZero H] [NeZero W]
    (x : ZMod T → ZMod H → ZMod W → ℂ) : ZMod T → ZMod H → ZMod W → ℂ :=
  idftAxisW (idftAxisH (idftAxisT x))

/-- Model of `torch.fft.fftshift(x, dim=(-3,-2,-1))`: roll each of the
trailing three axes by `len // 2`. -/
def fftshift3 {T H W : ℕ} (z : ZMod T → ZMod H → ZMod W → ℂ) :
    ZMod T → ZMod H → ZMod W → ℂ :=
  fun t h w => z (t - ((T / 2 : ℕ) : ZMod T)) (h - ((H / 2 : ℕ) : ZMod H))
    (w - ((W / 2 : ℕ) : ZMod W))

/-- Model of `torch.fft.ifftshift(x, dim=(-3,-2,-1))`: roll each of the
trailing three axes by `-(len // 2)`. -/
def ifftshift3 {T H W : ℕ} (z : ZMod T → ZMod H → ZMod W → ℂ) :
    ZMod T → ZMod H → ZMod W → ℂ :=
  fun t h w => z (t + ((T / 2 : ℕ) : ZMod T)) (h + ((H / 2 : ℕ) : ZMod H))
    (w + ((W / 2 : ℕ) : ZMod W))

/-- Embedding of `freq_mix_3d(x, noise, LPF)` on the trailing three axes (the
leading batch/channel axes are processed pointwise by every step of the
code): FFT and shift both real inputs, blend with the mask and its complement
`HPF = 1 - LPF`, undo shift, inverse FFT, keep the real part. -/
noncomputable def freq_mix_3d {T H W : ℕ} [NeZero T] [NeZero H] [NeZero W]
    (x noise LPF : ZMod T → ZMod H → ZMod W → ℝ) :
    ZMod T → ZMod H → ZMod W → ℝ :=
  let x_freq := fftshift3 (fftn fun t h w => ((x t h w : ℝ) : ℂ))
  let noise_freq := fftshift3 (fftn fun t h w => ((noise t h w : ℝ) : ℂ))
  let HPF := fun t h w => 1 - LPF t h w
  let x_freq_mixed := fun t h w =>
    x_freq t h w * ((LPF t h w : ℝ) : ℂ) + noise_freq t h w * ((HPF t h w : ℝ) : ℂ)
  fun t h w => (ifftn (ifftshift3 x_freq_mixed) t h w).re

/-- The inverse DFT undoes the forward DFT along the time axis. -/
theorem idftAxisT_dftAxisT {T H W : ℕ} [NeZero T] (x : ZMod T → ZMod H → ZMod W → ℂ) :
    idftAxisT (dftAxisT x) = x := by
  funext t h w
  exact congrFun (ZMod.dft.symm_apply_apply (fun t2 => x t2 h w)) t

/-- The inverse DFT undoes the forward DFT along the height axis. -/
theorem idftAxisH_dftAxisH {T H W : ℕ} [NeZero H] (x : ZMod T → ZMod H → ZMod W → ℂ) :
    idftAxisH (dftAxisH x) = x := by
  funext t h w
  exact congrFun (ZMod.dft.symm_apply_apply (fun h2 => x t h2 w)) h

/-- The inverse DFT undoes the forward DFT along the width axis. -/
theorem idftAxisW_dftAxisW {T H W : ℕ} [NeZero W] (x : ZMod T → ZMod H → ZMod W → ℂ) :
    idftAxisW (dftAxisW x) = x := by
  funext t h w
  exact congrFun (ZMod.dft.symm_apply_apply (x t h)) w

/-- The inverse 3D FFT undoes the forward 3D FFT. -/
theorem ifftn_fftn {T H W : ℕ} [NeZero T] [NeZero H] [NeZero W]
    (x : ZMod T → ZMod H → ZMod W → ℂ) : ifftn (fftn x) = x := by
  unfold ifftn fftn
  rw [idftAxisT_dftAxisT, idftAxisH_dftAxisH, idftAxisW_dftAxisW]

/-- The inverse shift undoes the centering shift. -/
theorem ifftshift3_fftshift3 {T H W : ℕ} (z : ZMod T → ZMod H → ZMod W → ℂ) :
    ifftshift3 (fftshift3 z) = z := by
  funext t h w
  simp [ifftshift3, fftshift3, add_sub_cancel_right]

/-- Round trip of the mixer pipeline on a single real signal: shift-FFT then
inverse-shift-inverse-FFT then real part gives back the signal. -/
theorem mix_roundtrip {T H W : ℕ} [NeZero T] [NeZero H] [NeZero W]
    (x : ZMod T → ZMod H → ZMod W → ℝ) :
    (fun t h w =>
      (ifftn (ifftshift3 (fftshift3 (fftn fun a b c => ((x a b c : ℝ) : ℂ)))) t h w).re) = x := by
  rw [ifftshift3_fftshift3, ifftn_fftn]
  funext t h w
  exact Complex.ofReal_re _

/-- C5: mixing with the all-ones mask returns x unchanged, and mixing with the
all-zero mask returns noise unchanged (exactly, in the real-arithmetic
model). -/
theorem freq_mix_ones_zeros {T H W : ℕ} [NeZero T] [NeZero H] [NeZero W]
    (x noise : ZMod T → ZMod H → ZMod W → ℝ) :
    freq_mix_3d x noise (fun _ _ _ => 1) = x ∧
      freq_mix_3d x noise (fun _ _ _ => 0) = noise := by
  constructor
  · have hfun : (fun t h w =>
          fftshift3 (fftn fun a b c => ((x a b c : ℝ) : ℂ)) t h w * (((1 : ℝ)) : ℂ) +
            fftshift3 (fftn fun a b c => ((noise a b c : ℝ) : ℂ)) t h w *
              (((1 - 1 : ℝ)) : ℂ)) =
        fftshift3 (fftn fun a b c => ((x a b c : ℝ) : ℂ)) := by
      funext t h w
      norm_num
    calc freq_mix_3d x noise (fun _ _ _ => 1) =
        fun t h w =>
          (ifftn (ifftshift3 (fftshift3 (fftn fun a b c => ((x a b c : ℝ) : ℂ)))) t h w).re := by
          show (fun t h w => (ifftn (ifftshift3 (fun t h w =>
              fftshift3 (fftn fun a b c => ((x a b c : ℝ) : ℂ)) t h w * (((1 : ℝ)) : ℂ) +
                fftshift3 (fftn fun a b c => ((noise a b c : ℝ) : ℂ)) t h w *
                  (((1 - 1 : ℝ)) : ℂ))) t h w).re) = _
          rw [hfun]
      _ = x := mix_roundtrip x
  · have hfun : (fun t h w =>
          fftshift3 (fftn fun a b c => ((x a b c : ℝ) : ℂ)) t h w * (((0 : ℝ)) : ℂ) +
            fftshift3 (fftn fun a b c => ((noise a b c : ℝ) : ℂ)) t h w *
              (((1 - 0 : ℝ)) : ℂ)) =
        fftshift3 (fftn fun a b c => ((noise a b c : ℝ) : ℂ)) := by
      funext t h w
      norm_num
    calc freq_mix_3d x noise (fun _ _ _ => 0) =
        fun t h w =>
          (ifftn (ifftshift3 (fftshift3 (fftn fun a b c => ((noise a b c : ℝ) : ℂ)))) t h w).re := by
          show (fun t h w => (ifftn (ifftshift3 (fun t h w =>
              fftshift3 (fftn fun a b c => ((x a b c : ℝ) : ℂ)) t h w * (((0 : ℝ)) : ℂ) +
                fftshift3 (fftn fun a b c => ((noise a b c : ℝ) : ℂ)) t h w *
                  (((1 - 0 : ℝ)) : ℂ))) t h w).re) = _
          rw [hfun]
      _ = noise := mix_roundtrip noise

/-- Witness for C5 with constant signals on shape 1×1×1. -/
theorem freq_mix_ones_zeros_witness :
    freq_mix_3d (fun _ _ _ => (3 : ℝ)) (fun _ _ _ => (5 : ℝ)) (fun _ _ _ => 1) =
        (fun _ _ _ => (3 : ℝ) : ZMod 1 → ZMod 1 → ZMod 1 → ℝ) ∧
      freq_mix_3d (fun _ _ _ => (3 : ℝ)) (fun _ _ _ => (5 : ℝ)) (fun _ _ _ => 0) =
        (fun _ _ _ => (5 : ℝ) : ZMod 1 → ZMod 1 → ZMod 1 → ℝ) :=
  freq_mix_ones_zeros (fun _ _ _ => (3 : ℝ)) (fun _ _ _ => (5 : ℝ))

/-- C6: mixing a signal with itself under any mask returns the signal
(exactly, in the real-arithmetic model): the low and high frequency parts
recombine. -/
theorem freq_mix_self {T H W : ℕ} [NeZero T] [NeZero H] [NeZero W]
    (x LPF : ZMod T → ZMod H → ZMod W → ℝ) :
    freq_mix_3d x x LPF = x := by
  have hfun : (fun t h w =>
        fftshift3 (fftn fun a b c => ((x a b c : ℝ) : ℂ)) t h w * ((LPF t h w : ℝ) : ℂ) +
          fftshift3 (fftn fun a b c => ((x a b c : ℝ) : ℂ)) t h w *
            (((1 - LPF t h w : ℝ)) : ℂ)) =
      fftshift3 (fftn fun a b c => ((x a b c : ℝ) : ℂ)) := by
    funext t h w
    push_cast
    ring
  calc freq_mix_3d x x LPF =
      fun t h w =>
        (ifftn (ifftshift3 (fftshift3 (fftn fun a b c => ((x a b c : ℝ) : ℂ)))) t h w).re := by
        show (fun t h w => (ifftn (ifftshift3 (fun t h w =>
            fftshift3 (fftn fun a b c => ((x a b c : ℝ) : ℂ)) t h w * ((LPF t h w : ℝ) : ℂ) +
              fftshift3 (fftn fun a b c => ((x a b c : ℝ) : ℂ)) t h w *
                (((1 - LPF t h w : ℝ)) : ℂ))) t h w).re) = _
        rw [hfun]
    _ = x := mix_roundtrip x

/-- Witness for C6 with a constant signal and the constant half mask on shape
1×1×1. -/
theorem freq_mix_self_witness :
    freq_mix_3d (fun _ _ _ => (3 : ℝ)) (fun _ _ _ => (3 : ℝ)) (fun _ _ _ => (1 / 2 : ℝ)) =
      (fun _ _ _ => (3 : ℝ) : ZMod 1 → ZMod 1 → ZMod 1 → ℝ) :=
  freq_mix_self (fun _ _ _ => (3 : ℝ)) (fun _ _ _ => (1 / 2 : ℝ))

end FreeInit
